import Mathlib

/-! Verification of the isotopic material model (`IsoVector`, Material.h) of the
cyclus fuel-cycle simulation framework, and of its Bateman-equation decay solver.
C++ doubles are modelled as exact rationals (composition layer) or reals (decay
solver); `std::map<Iso, double>` is modelled as an association list. -/

namespace Cyclus

/-- C++ `typedef int Iso` (Material.h). -/
abbrev Iso := Int

/-- C++ `typedef std::map<Iso, double> CompMap` (Material.h). -/
abbrev CompMap := List (Iso × ℚ)

/-- `#define AVOGADRO 6.02e23` (Material.h). -/
def AVOGADRO : ℚ := 602 * 10 ^ 21

/-- `#define EPS 1e-6` (Material.h): the conservation-of-mass tolerance in kg. -/
def EPS : ℚ := 1 / 1000000

/-- `enum Basis {ATOMBASED, MASSBASED}` (Material.h). -/
inductive Basis where
  | ATOMBASED
  | MASSBASED
deriving DecidableEq

/-- Modelled from the spec: the body of `IsoVector::getMassNum` is not among the
submitted sources (only its declaration in Material.h is).  Per spec section 3 a
nuclide id is either the legacy `ZZAAA` integer or the canonical `ZZZAAASSSS`
integer; the mass number `A` is the middle field. -/
def getMassNum (tope : Iso) : Int :=
  if tope < 1000000 then tope % 1000 else (tope / 10000) % 1000

/-- Modelled from the spec: the body of `IsoVector::getAtomicNum` is not among the
submitted sources.  The atomic number `Z` is the leading field of the id. -/
def getAtomicNum (tope : Iso) : Int :=
  if tope < 1000000 then tope / 1000 else tope / 10000000

/-- Modelled from the spec: the body of `IsoVector::getAtomicMass` (g/mol) and the
builtin atomic-mass table are not among the submitted sources.  Per spec section
4.1, lookup of an id absent from the table returns the mass number `A` as the
atomic mass (integer-approximation fallback); the model uses that fallback for
every nuclide. -/
def getAtomicMass (tope : Iso) : ℚ := (getMassNum tope : ℚ)

/-- Mass in kg of `a` atoms of nuclide `tope`:
`mass = atoms * atomic_mass / N_A * 10^(-3)` (spec section 3). -/
def massOfAtoms (tope : Iso) (a : ℚ) : ℚ := a * getAtomicMass tope / AVOGADRO / 1000

/-- Atom count of `m` kg of nuclide `tope`: the inverse conversion of
`massOfAtoms`. -/
def atomsOfMass (tope : Iso) (m : ℚ) : ℚ := m * 1000 * AVOGADRO / getAtomicMass tope

/-- Lookup in a composition map; an absent isotope reads as zero. -/
def lookupComp : CompMap → Iso → ℚ
  | [], _ => 0
  | (j, x) :: rest, i => if i = j then x else lookupComp rest i

/-- Sum of the values of a composition map. -/
def sumVals : CompMap → ℚ
  | [] => 0
  | (_, x) :: rest => x + sumVals rest

/-- The keys of a composition map. -/
def keysOf (m : CompMap) : List Iso := m.map Prod.fst

/-- Add `x` to the entry of `tope` (inserting it if absent), as
`comp_map_[tope] += x` does on a `std::map`. -/
def insertAdd : CompMap → Iso → ℚ → CompMap
  | [], tope, x => [(tope, x)]
  | (j, y) :: rest, tope, x =>
      if j = tope then (j, y + x) :: rest else (j, y) :: insertAdd rest tope x

/-- The sum of the values that a list of entries carries under key `i` (a list
that is a map, with distinct keys, carries at most one). -/
def entrySum : CompMap → Iso → ℚ
  | [], _ => 0
  | (j, x) :: rest, i => (if i = j then x else 0) + entrySum rest i

/-- Per-entry conversion of an atom-basis map to the consistent mass-basis map. -/
def deriveMassMap (m : CompMap) : CompMap :=
  m.map (fun p => (p.1, massOfAtoms p.1 p.2))

/-- Per-entry conversion of a mass-basis map to the consistent atom-basis map. -/
def deriveAtomMap (m : CompMap) : CompMap :=
  m.map (fun p => (p.1, atomsOfMass p.1 p.2))

/-- Every entry multiplied by the scalar `s`. -/
def scaleMap (m : CompMap) (s : ℚ) : CompMap := m.map (fun p => (p.1, p.2 * s))

/-- Error kinds of the composition layer (spec section 7). -/
inductive MatErr where
  | UnitMismatch
  | InsufficientInventory
  | ConservationViolated
deriving DecidableEq

/-- The `IsoVector` material object (Material.h): dual atom/mass accounting plus
cached totals.  The header stores one `comp_map_` and re-derives the other basis
through `rationalize_A2M`/`rationalize_M2A`; the model keeps both bases
explicitly, the mass side being the re-derived one.  The per-composition history
and the serial id are omitted: no claim concerns them. -/
structure IsoVector where
  units_ : String
  recipeName_ : String
  atom_map_ : CompMap
  mass_map_ : CompMap
  total_atoms_ : ℚ
  total_mass_ : ℚ
deriving DecidableEq

/-- Modelled from the spec: the body of `IsoVector::rationalize_A2M` is not among
the submitted sources.  Per Material.h it converts an atom composition into a
consistent mass composition; per spec section 3 it re-derives the mass basis and
the `total_*` fields from the atom basis. -/
def rationalize_A2M (c : IsoVector) : IsoVector :=
  let mm := deriveMassMap c.atom_map_
  { c with mass_map_ := mm, total_atoms_ := sumVals c.atom_map_, total_mass_ := sumVals mm }

/-- Modelled from the spec: the body of `IsoVector::rationalize_M2A` is not among
the submitted sources.  It re-derives the atom basis and the `total_*` fields
from the mass basis. -/
def rationalize_M2A (c : IsoVector) : IsoVector :=
  let am := deriveAtomMap c.mass_map_
  { c with atom_map_ := am, total_mass_ := sumVals c.mass_map_, total_atoms_ := sumVals am }

/-- Modelled from the spec: the body of `IsoVector::normalize` is not among the
submitted sources.  Per spec section 4.4 it divides the map by the larger of its
sum and `EPS`, so an empty (or all-below-tolerance) map is not divided by zero. -/
def normalize (comp_map : CompMap) : CompMap :=
  comp_map.map (fun p => (p.1, p.2 / max (sumVals comp_map) EPS))

/-- Modelled from the spec: the body of the recipe constructor
`IsoVector::IsoVector(CompMap, string, string, double, Basis)` is not among the
submitted sources.  Per spec section 4.4 the map is normalized to sum 1 and then
multiplied by `scale` (total mass in kg if mass-based, total atoms if
atom-based); the other basis is then re-derived. -/
def mkIsoVector (comp : CompMap) (mat_unit rec_name : String) (scale : ℚ)
    (type : Basis) : IsoVector :=
  match type with
  | .ATOMBASED =>
      rationalize_A2M
        { units_ := mat_unit, recipeName_ := rec_name,
          atom_map_ := scaleMap (normalize comp) scale, mass_map_ := [],
          total_atoms_ := 0, total_mass_ := 0 }
  | .MASSBASED =>
      rationalize_M2A
        { units_ := mat_unit, recipeName_ := rec_name, atom_map_ := [],
          mass_map_ := scaleMap (normalize comp) scale,
          total_atoms_ := 0, total_mass_ := 0 }

/-- `IsoVector::getTotMass` (Material.h): total mass of the object, in kg. -/
def getTotMass (c : IsoVector) : ℚ := c.total_mass_

/-- `IsoVector::getTotAtoms` (Material.h): total atom count of the object. -/
def getTotAtoms (c : IsoVector) : ℚ := c.total_atoms_

/-- `IsoVector::getMassComp` (Material.h): current mass of the given isotope, or
zero if that isotope is not present. -/
def getMassComp (c : IsoVector) (tope : Iso) : ℚ := lookupComp c.mass_map_ tope

/-- `IsoVector::getAtomComp` (Material.h): current atom count of the given
isotope, or zero if that isotope is not present. -/
def getAtomComp (c : IsoVector) (tope : Iso) : ℚ := lookupComp c.atom_map_ tope

/-- Call semantics of the `const` query `getMassComp`: the C++ member function is
declared `const` (Material.h line 185), so a call returns the value and leaves
the object as it was. -/
def getMassCompCall (c : IsoVector) (tope : Iso) : ℚ × IsoVector :=
  (getMassComp c tope, c)

/-- Call semantics of the `const` query `getAtomComp` (Material.h line 205). -/
def getAtomCompCall (c : IsoVector) (tope : Iso) : ℚ × IsoVector :=
  (getAtomComp c tope, c)

/-- The successful path of `IsoVector::changeComp`: adjust the atom count of
`tope` by `change` and re-derive the mass side.  The `time` stamp only feeds the
omitted history. -/
def changeCompOk (c : IsoVector) (tope : Iso) (change : ℚ) : IsoVector :=
  rationalize_A2M { c with atom_map_ := insertAdd c.atom_map_ tope change }

/-- Modelled from the spec: the body of `IsoVector::changeComp` is not among the
submitted sources.  Per spec section 4.4 it adjusts the atom count of `tope`,
failing with `ConservationViolated` when the change would drive the entry below
`-EPS` in mass-equivalent units; on success it re-rationalizes the mass side. -/
def changeComp (c : IsoVector) (tope : Iso) (change : ℚ) (_time : Int) :
    Except MatErr IsoVector :=
  if massOfAtoms tope (lookupComp c.atom_map_ tope + change) < -EPS then
    .error .ConservationViolated
  else
    .ok (changeCompOk c tope change)

/-- The successful path of `IsoVector::absorb`: each nuclide's atoms of `other`
are added into `self` (which is then re-rationalized), and `other` is left
logically empty but valid (maps cleared, totals zeroed). -/
def absorbOk (self other : IsoVector) : IsoVector × IsoVector :=
  (rationalize_A2M
     { self with
       atom_map_ := other.atom_map_.foldl (fun m p => insertAdd m p.1 p.2) self.atom_map_ },
   { other with atom_map_ := [], mass_map_ := [], total_atoms_ := 0, total_mass_ := 0 })

/-- Modelled from the spec: the body of `IsoVector::absorb` is not among the
submitted sources.  Per spec section 4.4 it requires matching unit labels
(`UnitMismatch` otherwise) and then moves the contents of `other` into `self`. -/
def absorb (self other : IsoVector) : Except MatErr (IsoVector × IsoVector) :=
  if self.units_ ≠ other.units_ then .error .UnitMismatch
  else .ok (absorbOk self other)

/-- The successful path of `IsoVector::extract`: subtract each of the atoms of
`other` from `self` and re-rationalize. -/
def extractOk (self other : IsoVector) : IsoVector :=
  rationalize_A2M
    { self with
      atom_map_ := other.atom_map_.foldl (fun m p => insertAdd m p.1 (-p.2)) self.atom_map_ }

/-- Modelled from the spec: the body of `IsoVector::extract` is not among the
submitted sources.  Per spec sections 4.4 and 7 it requires matching unit labels,
and every nuclide of `other` must be present in `self` with at least the
requested quantity minus `EPS` (compared in mass-equivalent units, `EPS` being a
mass tolerance), else `InsufficientInventory`. -/
def extract (self other : IsoVector) : Except MatErr IsoVector :=
  if self.units_ ≠ other.units_ then .error .UnitMismatch
  else if other.atom_map_.all
      (fun p => massOfAtoms p.1 p.2 - EPS ≤ massOfAtoms p.1 (lookupComp self.atom_map_ p.1)) then
    .ok (extractOk self other)
  else .error .InsufficientInventory

/-- The successful path of `IsoVector::extractMass`: the extracted object carries
mass `ext` with the same normalized composition as `self`, and `self` is scaled
down to the remaining mass; both sides are re-rationalized.  Returns
`(extracted, remainder)`. -/
def extractMassOk (self : IsoVector) (ext : ℚ) : IsoVector × IsoVector :=
  let normMass := normalize self.mass_map_
  (rationalize_M2A
     { units_ := self.units_, recipeName_ := self.recipeName_, atom_map_ := [],
       mass_map_ := scaleMap normMass ext, total_atoms_ := 0, total_mass_ := 0 },
   rationalize_M2A
     { self with mass_map_ := scaleMap normMass (self.total_mass_ - ext) })

/-- Modelled from the spec: the body of `IsoVector::extractMass` is not among the
submitted sources.  Per spec sections 4.4 and 8 (scenario S4) it fails with
`InsufficientInventory` when the requested mass exceeds the total mass beyond
`EPS`, and otherwise splits off a same-stoichiometry object of mass `ext`. -/
def extractMass (self : IsoVector) (ext : ℚ) : Except MatErr (IsoVector × IsoVector) :=
  if ext > self.total_mass_ + EPS then .error .InsufficientInventory
  else .ok (extractMassOk self ext)

/-- Modelled from the spec: the body of `IsoVector::decay(double)` is not among
the submitted sources.  Per spec section 4.4 it delegates to the decay solver
with the composition's atom vector, replaces the atom map with the solver's
result `w`, and re-rationalizes the mass side.  The solver itself is modelled
over the reals below (`evolve`). -/
def decayWith (self : IsoVector) (w : CompMap) : IsoVector :=
  rationalize_A2M { self with atom_map_ := w }

/-- The mathematical `Vector` type of `UseMatrixLib` used by
`IsoVector::makeCompVector` and `IsoVector::makeFromVect`. -/
abbrev MathVector := List ℚ

/-- Modelled from the spec: the body of `IsoVector::makeFromVect` is not among
the submitted sources.  Per Material.h it converts the mathematical vector back
into the map representation, writing each component into the map under the
nuclide assigned to its row; the row-to-nuclide assignment is abstracted as the
row position. -/
def makeFromVectBody (compVector : MathVector) (comp : CompMap) : CompMap :=
  (compVector.enum).foldl (fun m p => insertAdd m (Int.ofNat p.1) p.2) comp

/-- C++ call semantics of a parameter received by value: the callee works on a
copy, which is discarded at return, so the caller's argument is unchanged.
`makeFromVect` declares its `CompMap comp` parameter by value
(Material.h line 367). -/
def byValueCall (body : CompMap → CompMap) (arg : CompMap) : CompMap :=
  let _copy := body arg
  arg

/-- The caller-visible effect on `comp` of calling
`IsoVector::makeFromVect(compVector, comp)`. -/
def makeFromVectCall (compVector : MathVector) (comp : CompMap) : CompMap :=
  byValueCall (makeFromVectBody compVector) comp

/-- The isotopes tracked by a composition: the keys of its two basis maps. -/
def trackedKeys (c : IsoVector) : List Iso := keysOf c.atom_map_ ++ keysOf c.mass_map_

/-- The basis-consistency invariant as the spec states it (section 8, law 1):
every tracked isotope's stored mass agrees with its atom count through
`atomic_mass/N_A`-conversion to within `EPS`, and the cached totals agree with
the per-isotope sums to within `EPS`. -/
def EpsInv (c : IsoVector) : Prop :=
  (∀ i ∈ trackedKeys c,
      |getMassComp c i - getAtomComp c i * getAtomicMass i / AVOGADRO / 1000| < EPS)
  ∧ |c.total_mass_ - sumVals c.mass_map_| < EPS
  ∧ |c.total_atoms_ - sumVals c.atom_map_| < EPS

/-- The exact (rational-arithmetic) form of the dual-accounting invariant: the
mass map is the derived image of the atom map and the totals are the sums. -/
def RatInv (c : IsoVector) : Prop :=
  c.mass_map_ = deriveMassMap c.atom_map_
  ∧ c.total_atoms_ = sumVals c.atom_map_
  ∧ c.total_mass_ = sumVals c.mass_map_

/-- Modelled from the spec: the decay solver (spec section 4.3) computes
`v' = exp(A*t) . v` for the decay-transition matrix `A`, elapsed months `t`, and
composition vector `v`; its implementation is not among the submitted sources. -/
noncomputable def evolve {n : ℕ} (A : Matrix (Fin n) (Fin n) ℝ) (v : Fin n → ℝ)
    (t : ℝ) : Fin n → ℝ :=
  (NormedSpace.exp ℝ (t • A)).mulVec v

/-- Modelled from the spec: the body of `IsoVector::makeDecayMatrix` is not among
the submitted sources.  Per spec section 3, column `j` of the decay matrix holds
`-lam j` on the diagonal and `br j i * lam j` in the row of each daughter `i` of
parent `j`; a nuclide that is no parent contributes a zero column (`lam j = 0`). -/
def makeDecayMatrix {n : ℕ} (lam : Fin n → ℝ) (br : Fin n → Fin n → ℝ) :
    Matrix (Fin n) (Fin n) ℝ :=
  Matrix.of fun i j => if i = j then -lam j else br j i * lam j

/-- Total atom count of a solver-space composition vector. -/
def sumAtoms {n : ℕ} (v : Fin n → ℝ) : ℝ := ∑ i, v i

/-- The all-ones row vector used to total a composition vector. -/
def onesRow (n : ℕ) : Fin n → ℝ := fun _ => 1

/-- The natural-uranium recipe of spec scenario S1, at mass basis and 1 kg. -/
def natU : IsoVector :=
  mkIsoVector [((92235 : Int), 72 / 10000), ((92238 : Int), 9928 / 10000)]
    "kg" "natU" 1 .MASSBASED

/-- One kilogram of U-235 (spec scenarios S3/S4). -/
def u235kg : IsoVector := mkIsoVector [((92235 : Int), 1)] "kg" "u1" 1 .MASSBASED

/-- Two kilograms of U-235 (spec scenario S3). -/
def u235kg2 : IsoVector := mkIsoVector [((92235 : Int), 1)] "kg" "u2" 2 .MASSBASED

/-- A one-nuclide decay system with a stable nuclide, for concrete solver runs. -/
def exLam : Fin 1 → ℝ := fun _ => 0

/-- Branching ratios of the one-nuclide system. -/
def exBr : Fin 1 → Fin 1 → ℝ := fun _ _ => 0

/-- A concrete solver-space composition vector. -/
def exVec : Fin 1 → ℝ := fun _ => 1

/-- A concrete (zero) decay matrix. -/
def exMat : Matrix (Fin 1) (Fin 1) ℝ := 0

theorem eps_pos : 0 < EPS := by norm_num [EPS]

theorem lookupComp_not_mem (m : CompMap) (i : Iso) (h : i ∉ keysOf m) :
    lookupComp m i = 0 := by
  induction m with
  | nil => rfl
  | cons p rest ih =>
    simp only [keysOf, List.map_cons, List.mem_cons, not_or] at h
    simpa [lookupComp, h.1] using ih (by simpa [keysOf] using h.2)

theorem keysOf_mapSnd (m : CompMap) (f : Iso → ℚ → ℚ) :
    keysOf (m.map fun p => (p.1, f p.1 p.2)) = keysOf m := by
  induction m with
  | nil => rfl
  | cons p rest ih => simp [keysOf]

theorem lookupComp_mapSnd (m : CompMap) (f : Iso → ℚ → ℚ) (i : Iso)
    (h0 : f i 0 = 0) :
    lookupComp (m.map fun p => (p.1, f p.1 p.2)) i = f i (lookupComp m i) := by
  induction m with
  | nil => simpa [lookupComp] using h0.symm
  | cons p rest ih =>
    by_cases hij : i = p.1
    · subst hij; simp [lookupComp]
    · simpa [lookupComp, hij] using ih

theorem massOfAtoms_zero (i : Iso) : massOfAtoms i 0 = 0 := by
  simp [massOfAtoms]

theorem atomsOfMass_zero (i : Iso) : atomsOfMass i 0 = 0 := by
  simp [atomsOfMass]

theorem avogadro_ne_zero : AVOGADRO ≠ 0 := by norm_num [AVOGADRO]

theorem massOfAtoms_atomsOfMass (i : Iso) (x : ℚ) (h : getAtomicMass i ≠ 0) :
    massOfAtoms i (atomsOfMass i x) = x := by
  unfold massOfAtoms atomsOfMass
  have hA : AVOGADRO ≠ 0 := avogadro_ne_zero
  field_simp

theorem keysOf_deriveAtomMap (m : CompMap) : keysOf (deriveAtomMap m) = keysOf m :=
  keysOf_mapSnd m atomsOfMass

theorem keysOf_deriveMassMap (m : CompMap) : keysOf (deriveMassMap m) = keysOf m :=
  keysOf_mapSnd m massOfAtoms

theorem lookupComp_deriveMassMap (m : CompMap) (i : Iso) :
    lookupComp (deriveMassMap m) i = massOfAtoms i (lookupComp m i) :=
  lookupComp_mapSnd m massOfAtoms i (massOfAtoms_zero i)

theorem lookupComp_deriveAtomMap (m : CompMap) (i : Iso) :
    lookupComp (deriveAtomMap m) i = atomsOfMass i (lookupComp m i) :=
  lookupComp_mapSnd m atomsOfMass i (atomsOfMass_zero i)

/-- `rationalize_A2M` unconditionally restores the basis-consistency invariant. -/
theorem epsInv_rationalize_A2M (c : IsoVector) : EpsInv (rationalize_A2M c) := by
  refine ⟨?_, ?_, ?_⟩
  · intro i _
    have h1 : getMassComp (rationalize_A2M c) i
        = massOfAtoms i (lookupComp c.atom_map_ i) := by
      simpa [rationalize_A2M, getMassComp] using
        lookupComp_deriveMassMap c.atom_map_ i
    have h2 : getAtomComp (rationalize_A2M c) i = lookupComp c.atom_map_ i := rfl
    rw [h1, h2]
    simpa [massOfAtoms, sub_self] using eps_pos
  · simpa [rationalize_A2M, sub_self] using eps_pos
  · simpa [rationalize_A2M, sub_self] using eps_pos

/-- `rationalize_M2A` restores the basis-consistency invariant whenever every
isotope of the mass map has a nonzero atomic mass (true of every valid nuclide,
whose mass number is at least its atomic number, hence at least 1). -/
theorem epsInv_rationalize_M2A (c : IsoVector)
    (h : ∀ i ∈ keysOf c.mass_map_, getAtomicMass i ≠ 0) :
    EpsInv (rationalize_M2A c) := by
  refine ⟨?_, ?_, ?_⟩
  · intro i hi
    have hkeys : i ∈ keysOf c.mass_map_ := by
      have heq : trackedKeys (rationalize_M2A c)
          = keysOf (deriveAtomMap c.mass_map_) ++ keysOf c.mass_map_ := rfl
      rw [heq] at hi
      rcases List.mem_append.1 hi with hL | hR
      · rwa [keysOf_deriveAtomMap c.mass_map_] at hL
      · exact hR
    have h1 : getMassComp (rationalize_M2A c) i = lookupComp c.mass_map_ i := rfl
    have h2 : getAtomComp (rationalize_M2A c) i
        = atomsOfMass i (lookupComp c.mass_map_ i) := by
      simpa [rationalize_M2A, getAtomComp] using
        lookupComp_deriveAtomMap c.mass_map_ i
    have h3 := massOfAtoms_atomsOfMass i (lookupComp c.mass_map_ i) (h i hkeys)
    rw [h1, h2]
    rw [massOfAtoms] at h3
    rw [h3]
    simpa [sub_self] using eps_pos
  · simpa [rationalize_M2A, sub_self] using eps_pos
  · simpa [rationalize_M2A, sub_self] using eps_pos

theorem sumVals_mapDiv (m : CompMap) (s : ℚ) :
    sumVals (m.map fun p => (p.1, p.2 / s)) = sumVals m / s := by
  induction m with
  | nil => simp [sumVals]
  | cons p rest ih => simp [sumVals, ih, add_div]

theorem mapDiv_one (m : CompMap) : (m.map fun p => (p.1, p.2 / 1)) = m := by
  induction m with
  | nil => rfl
  | cons p rest ih => simp [ih]

theorem u235kg_total_mass : u235kg.total_mass_ = 1 := by
  norm_num [u235kg, mkIsoVector, rationalize_M2A, normalize, sumVals, scaleMap,
    EPS, max_def]

/-- C6: for every composition, `extractMass` with a requested mass exceeding the
total mass beyond `EPS` fails with `InsufficientInventory` and produces no
extracted object. -/
theorem c6_extract_excess_fails (c : IsoVector) (m : ℚ)
    (h : getTotMass c + EPS < m) :
    extractMass c m = .error .InsufficientInventory := by
  unfold extractMass
  unfold getTotMass at h
  rw [if_pos h]

/-- C6 witness: on 1 kg of U-235, `extractMass 1.5` raises
`InsufficientInventory` (spec scenario S4). -/
theorem c6_extract_excess_fails_witness :
    getTotMass u235kg + EPS < 3 / 2
    ∧ extractMass u235kg (3 / 2) = .error .InsufficientInventory :=
  ⟨by rw [getTotMass, u235kg_total_mass]; norm_num [EPS],
   c6_extract_excess_fails u235kg (3 / 2)
     (by rw [getTotMass, u235kg_total_mass]; norm_num [EPS])⟩

/-- C7 counterexample: the natural-uranium recipe of scenario S1 does give total
mass exactly 1 kg, but its total atom count is about 2.5296e24, more than 1%
away from the spec's expected 2.561e24, so the claimed bound of 0.1% fails. -/
theorem c7_natural_uranium_counterexample :
    ¬ (natU.total_mass_ = 1
        ∧ |natU.total_atoms_ - 2561 * 10 ^ 21| ≤ 1 / 1000 * (2561 * 10 ^ 21)) := by
  norm_num [natU, mkIsoVector, rationalize_M2A, normalize, sumVals, scaleMap,
    deriveAtomMap, atomsOfMass, getAtomicMass, getMassNum, AVOGADRO, EPS,
    max_def, abs_le]

/-- C7 (amended): constructing the recipe with U-235 at 0.00720 and U-238 at
0.99280, at mass basis and scale 1 kg, yields total mass exactly 1 kg and a
total atom count within 0.1% of 2.5296e24 (the spec's 2.561e24 is the atom
count of 1 kg of pure U-235, not of natural uranium). -/
theorem c7_natural_uranium_recipe :
    natU.total_mass_ = 1
    ∧ |natU.total_atoms_ - 25296 * 10 ^ 20| ≤ 1 / 1000 * (25296 * 10 ^ 20) := by
  constructor
  · norm_num [natU, mkIsoVector, rationalize_M2A, normalize, sumVals, scaleMap,
      EPS, max_def]
  · norm_num [natU, mkIsoVector, rationalize_M2A, normalize, sumVals, scaleMap,
      deriveAtomMap, atomsOfMass, getAtomicMass, getMassNum, AVOGADRO, EPS,
      max_def, abs_le]

/-- C8 counterexample: `normalize` is not idempotent on a map whose sum is below
`EPS`: a single entry of 1e-7 normalizes to 0.1, which normalizes again to 1. -/
theorem c8_normalize_counterexample :
    normalize (normalize [((55137 : Int), 1 / 10000000)])
      ≠ normalize [((55137 : Int), 1 / 10000000)] := by
  norm_num [normalize, sumVals, EPS, max_def]

/-- C8 (amended): `normalize` divides every entry by the larger of the map's sum
and `EPS` (so an empty map stays empty rather than dividing by zero), and
`normalize (normalize m) = normalize m` holds for every map whose sum is at
least `EPS` — and for the empty map — but not for arbitrary maps. -/
theorem c8_normalize_props (m : CompMap) (h : EPS ≤ sumVals m ∨ m = []) :
    normalize m = m.map (fun p => (p.1, p.2 / max (sumVals m) EPS))
    ∧ normalize ([] : CompMap) = []
    ∧ normalize (normalize m) = normalize m := by
  refine ⟨rfl, rfl, ?_⟩
  rcases h with h | h
  · have hmax : max (sumVals m) EPS = sumVals m := max_eq_left h
    have hpos : sumVals m ≠ 0 := ne_of_gt (lt_of_lt_of_le eps_pos h)
    have hsum : sumVals (normalize m) = 1 := by
      unfold normalize
      rw [sumVals_mapDiv, hmax, div_self hpos]
    have hone : max (sumVals (normalize m)) EPS = 1 := by
      rw [hsum]
      exact max_eq_left (by norm_num [EPS])
    calc normalize (normalize m)
        = (normalize m).map (fun p => (p.1, p.2 / max (sumVals (normalize m)) EPS)) := rfl
      _ = (normalize m).map (fun p => (p.1, p.2 / 1)) := by rw [hone]
      _ = normalize m := mapDiv_one _
  · subst h; rfl

/-- C8 witness: idempotence at a concrete map of sum 1. -/
theorem c8_normalize_props_witness :
    (EPS ≤ sumVals [((92235 : Int), (1 : ℚ))] ∨ [((92235 : Int), (1 : ℚ))] = ([] : CompMap))
    ∧ normalize (normalize [((92235 : Int), (1 : ℚ))]) = normalize [((92235 : Int), (1 : ℚ))] :=
  ⟨Or.inl (by norm_num [sumVals, EPS]),
   (c8_normalize_props [((92235 : Int), (1 : ℚ))]
      (Or.inl (by norm_num [sumVals, EPS]))).2.2⟩

/-- C9: querying an isotope absent from the composition maps returns 0 from both
`getMassComp` and `getAtomComp`, without failing and leaving the (const-qualified)
object unchanged. -/
theorem c9_absent_isotope_queries (c : IsoVector) (tope : Iso)
    (hm : tope ∉ keysOf c.mass_map_) (ha : tope ∉ keysOf c.atom_map_) :
    getMassCompCall c tope = (0, c) ∧ getAtomCompCall c tope = (0, c) := by
  constructor
  · show (getMassComp c tope, c) = (0, c)
    rw [getMassComp, lookupComp_not_mem _ _ hm]
  · show (getAtomComp c tope, c) = (0, c)
    rw [getAtomComp, lookupComp_not_mem _ _ ha]

/-- C9 witness: Cs-137 is absent from the 1 kg U-235 composition. -/
theorem c9_absent_isotope_queries_witness :
    ((55137 : Iso) ∉ keysOf u235kg.mass_map_)
    ∧ ((55137 : Iso) ∉ keysOf u235kg.atom_map_)
    ∧ getMassCompCall u235kg 55137 = (0, u235kg)
    ∧ getAtomCompCall u235kg 55137 = (0, u235kg) := by
  have hm : (55137 : Iso) ∉ keysOf u235kg.mass_map_ := by
    norm_num [u235kg, mkIsoVector, rationalize_M2A, keysOf, normalize, scaleMap]
  have ha : (55137 : Iso) ∉ keysOf u235kg.atom_map_ := by
    norm_num [u235kg, mkIsoVector, rationalize_M2A, keysOf, normalize, scaleMap,
      deriveAtomMap]
  exact ⟨hm, ha, (c9_absent_isotope_queries u235kg 55137 hm ha).1,
    (c9_absent_isotope_queries u235kg 55137 hm ha).2⟩

theorem keysOf_scaleMap (m : CompMap) (s : ℚ) : keysOf (scaleMap m s) = keysOf m :=
  keysOf_mapSnd m fun _ x => x * s

theorem keysOf_normalize (m : CompMap) : keysOf (normalize m) = keysOf m :=
  keysOf_mapSnd m fun _ x => x / max (sumVals m) EPS

/-- A composition whose maps are cleared and totals zeroed satisfies the
basis-consistency invariant vacuously. -/
theorem epsInv_cleared (c : IsoVector) :
    EpsInv { c with atom_map_ := [], mass_map_ := [],
                    total_atoms_ := 0, total_mass_ := 0 } := by
  refine ⟨?_, ?_, ?_⟩
  · intro i hi
    simp [trackedKeys, keysOf] at hi
  · simpa [sumVals, sub_self] using eps_pos
  · simpa [sumVals, sub_self] using eps_pos

theorem lookupComp_insertAdd (m : CompMap) (j : Iso) (x : ℚ) (i : Iso) :
    lookupComp (insertAdd m j x) i = lookupComp m i + (if i = j then x else 0) := by
  induction m with
  | nil =>
    by_cases h : i = j <;> simp [insertAdd, lookupComp, h]
  | cons p rest ih =>
    obtain ⟨k, y⟩ := p
    by_cases hkj : k = j
    · subst hkj
      by_cases hik : i = k <;> simp [insertAdd, lookupComp, hik]
    · by_cases hik : i = k
      · have hij : ¬ i = j := by rw [hik]; exact hkj
        simp [insertAdd, lookupComp, hkj, hik, hij]
      · simp [insertAdd, lookupComp, hkj, hik, ih]

theorem lookupComp_foldl_insertAdd (l m : CompMap) (i : Iso) :
    lookupComp (l.foldl (fun acc p => insertAdd acc p.1 p.2) m) i
      = lookupComp m i + entrySum l i := by
  induction l generalizing m with
  | nil => simp [entrySum]
  | cons p rest ih =>
    simp only [List.foldl_cons, entrySum]
    rw [ih (insertAdd m p.1 p.2), lookupComp_insertAdd]
    ring

theorem entrySum_not_mem (l : CompMap) (i : Iso) (h : i ∉ keysOf l) :
    entrySum l i = 0 := by
  induction l with
  | nil => rfl
  | cons p rest ih =>
    simp only [keysOf, List.map_cons, List.mem_cons, not_or] at h
    have hir : i ∉ keysOf rest := by simpa [keysOf] using h.2
    simp [entrySum, h.1, ih hir]

theorem entrySum_eq_lookupComp (l : CompMap) (i : Iso) (h : (keysOf l).Nodup) :
    entrySum l i = lookupComp l i := by
  induction l with
  | nil => rfl
  | cons p rest ih =>
    simp only [keysOf, List.map_cons, List.nodup_cons] at h
    have hrest : (keysOf rest).Nodup := h.2
    by_cases hip : i = p.1
    · have hnot : p.1 ∉ keysOf rest := by simpa [keysOf] using h.1
      simp [entrySum, lookupComp, hip, entrySum_not_mem rest p.1 hnot]
    · simp [entrySum, lookupComp, hip, ih hrest]

theorem sumVals_deriveMassMap_insertAdd (m : CompMap) (j : Iso) (x : ℚ) :
    sumVals (deriveMassMap (insertAdd m j x))
      = sumVals (deriveMassMap m) + massOfAtoms j x := by
  induction m with
  | nil => simp [insertAdd, deriveMassMap, sumVals]
  | cons p rest ih =>
    obtain ⟨k, y⟩ := p
    by_cases hkj : k = j
    · subst hkj
      have hadd : massOfAtoms k (y + x) = massOfAtoms k y + massOfAtoms k x := by
        unfold massOfAtoms; ring
      simp [insertAdd, deriveMassMap, sumVals, hadd]
      ring
    · simp [insertAdd, deriveMassMap, sumVals, hkj] at ih ⊢
      rw [ih]
      ring

theorem sumVals_deriveMassMap_foldl (l m : CompMap) :
    sumVals (deriveMassMap (l.foldl (fun acc p => insertAdd acc p.1 p.2) m))
      = sumVals (deriveMassMap m) + sumVals (deriveMassMap l) := by
  induction l generalizing m with
  | nil => simp [deriveMassMap, sumVals]
  | cons p rest ih =>
    simp only [List.foldl_cons]
    rw [ih (insertAdd m p.1 p.2), sumVals_deriveMassMap_insertAdd]
    simp [deriveMassMap, sumVals]
    ring

/-- C1: after every public mutation (changeComp, absorb, extract, extractMass,
decay), every tracked isotope's stored mass agrees with its atom count through
`atomic_mass / N_A * 10^(-3)` to within `EPS`, and the `total_mass_` and
`total_atoms_` fields agree with the per-isotope sums to within `EPS`.  The
`extractMass` clause assumes the tracked isotopes have nonzero atomic mass,
which holds for every valid nuclide (mass number at least 1). -/
theorem c1_basis_consistency :
    (∀ (c : IsoVector) (tope : Iso) (change : ℚ), EpsInv (changeCompOk c tope change))
    ∧ (∀ a b : IsoVector, EpsInv (absorbOk a b).1 ∧ EpsInv (absorbOk a b).2)
    ∧ (∀ a b : IsoVector, EpsInv (extractOk a b))
    ∧ (∀ (c : IsoVector) (m : ℚ),
        (∀ i ∈ keysOf c.mass_map_, getAtomicMass i ≠ 0) →
        EpsInv (extractMassOk c m).1 ∧ EpsInv (extractMassOk c m).2)
    ∧ (∀ (c : IsoVector) (w : CompMap), EpsInv (decayWith c w)) := by
  refine ⟨?_, ?_, ?_, ?_, ?_⟩
  · intro c tope change
    exact epsInv_rationalize_A2M _
  · intro a b
    exact ⟨epsInv_rationalize_A2M _, epsInv_cleared _⟩
  · intro a b
    exact epsInv_rationalize_A2M _
  · intro c m h
    constructor
    · refine epsInv_rationalize_M2A _ ?_
      intro i hi
      apply h
      rwa [keysOf_scaleMap, keysOf_normalize] at hi
    · refine epsInv_rationalize_M2A _ ?_
      intro i hi
      apply h
      rwa [keysOf_scaleMap, keysOf_normalize] at hi
  · intro c w
    exact epsInv_rationalize_A2M _

/-- C1 witness: the invariant after each mutation on concrete 1 kg / 2 kg U-235
compositions. -/
theorem c1_basis_consistency_witness :
    EpsInv (changeCompOk u235kg 92235 1)
    ∧ (EpsInv (absorbOk u235kg u235kg2).1 ∧ EpsInv (absorbOk u235kg u235kg2).2)
    ∧ EpsInv (extractOk u235kg u235kg2)
    ∧ (EpsInv (extractMassOk u235kg (1 / 2)).1 ∧ EpsInv (extractMassOk u235kg (1 / 2)).2)
    ∧ EpsInv (decayWith u235kg [((55137 : Int), 1)]) := by
  have hval : ∀ i ∈ keysOf u235kg.mass_map_, getAtomicMass i ≠ 0 := by
    intro i hi
    simp [u235kg, mkIsoVector, rationalize_M2A, keysOf, normalize, scaleMap] at hi
    subst hi
    norm_num [getAtomicMass, getMassNum]
  exact ⟨c1_basis_consistency.1 u235kg 92235 1,
    c1_basis_consistency.2.1 u235kg u235kg2,
    c1_basis_consistency.2.2.1 u235kg u235kg2,
    c1_basis_consistency.2.2.2.1 u235kg (1 / 2) hval,
    c1_basis_consistency.2.2.2.2 u235kg [((55137 : Int), 1)]⟩

theorem ratInv_u235kg : RatInv u235kg := by
  norm_num [RatInv, u235kg, mkIsoVector, rationalize_M2A, deriveMassMap, deriveAtomMap,
    massOfAtoms, atomsOfMass, scaleMap, normalize, sumVals, getAtomicMass, getMassNum,
    AVOGADRO, EPS, max_def]

theorem ratInv_u235kg2 : RatInv u235kg2 := by
  norm_num [RatInv, u235kg2, mkIsoVector, rationalize_M2A, deriveMassMap, deriveAtomMap,
    massOfAtoms, atomsOfMass, scaleMap, normalize, sumVals, getAtomicMass, getMassNum,
    AVOGADRO, EPS, max_def]

/-- C5: with matching unit labels, `absorb` succeeds, adds each nuclide's atoms
of `b` into `a`, leaves `b` logically empty but valid (maps cleared, totals
zeroed), and the absorbed total mass is the sum of the two prior total masses to
within `EPS`.  The hypotheses ask that `b`'s map have distinct keys (a
`std::map` property) and that both objects be rationalized (which every public
mutation re-establishes). -/
theorem c5_absorb (a b : IsoVector)
    (hu : a.units_ = b.units_)
    (hnd : (keysOf b.atom_map_).Nodup)
    (ha : RatInv a) (hb : RatInv b) :
    absorb a b = .ok (absorbOk a b)
    ∧ (∀ i, getAtomComp (absorbOk a b).1 i = getAtomComp a i + getAtomComp b i)
    ∧ (absorbOk a b).2.total_mass_ = 0
    ∧ (absorbOk a b).2.total_atoms_ = 0
    ∧ (absorbOk a b).2.atom_map_ = []
    ∧ (absorbOk a b).2.mass_map_ = []
    ∧ |(absorbOk a b).1.total_mass_ - (a.total_mass_ + b.total_mass_)| < EPS := by
  refine ⟨by simp [absorb, hu], ?_, rfl, rfl, rfl, rfl, ?_⟩
  · intro i
    have h1 : getAtomComp (absorbOk a b).1 i
        = lookupComp (b.atom_map_.foldl (fun acc p => insertAdd acc p.1 p.2) a.atom_map_) i :=
      rfl
    rw [h1, lookupComp_foldl_insertAdd, entrySum_eq_lookupComp _ _ hnd]
    rfl
  · have hm : (absorbOk a b).1.total_mass_
        = sumVals (deriveMassMap a.atom_map_) + sumVals (deriveMassMap b.atom_map_) := by
      show sumVals (deriveMassMap
          (b.atom_map_.foldl (fun acc p => insertAdd acc p.1 p.2) a.atom_map_)) = _
      exact sumVals_deriveMassMap_foldl b.atom_map_ a.atom_map_
    rw [hm, ← ha.1, ← hb.1, ← ha.2.2, ← hb.2.2]
    simpa [sub_self] using eps_pos

/-- C5 witness: absorbing 2 kg of U-235 into 1 kg of U-235. -/
theorem c5_absorb_witness :
    u235kg.units_ = u235kg2.units_
    ∧ (keysOf u235kg2.atom_map_).Nodup
    ∧ RatInv u235kg ∧ RatInv u235kg2
    ∧ absorb u235kg u235kg2 = .ok (absorbOk u235kg u235kg2)
    ∧ |(absorbOk u235kg u235kg2).1.total_mass_
        - (u235kg.total_mass_ + u235kg2.total_mass_)| < EPS := by
  have hu : u235kg.units_ = u235kg2.units_ := rfl
  have hnd : (keysOf u235kg2.atom_map_).Nodup := by
    simp [u235kg2, mkIsoVector, rationalize_M2A, keysOf, normalize, scaleMap,
      deriveAtomMap]
  refine ⟨hu, hnd, ratInv_u235kg, ratInv_u235kg2, ?_, ?_⟩
  · exact (c5_absorb u235kg u235kg2 hu hnd ratInv_u235kg ratInv_u235kg2).1
  · exact (c5_absorb u235kg u235kg2 hu hnd ratInv_u235kg ratInv_u235kg2).2.2.2.2.2.2

/-- C10: `makeFromVect` receives its `CompMap` parameter by value
(Material.h line 367), so the caller's map is unchanged by every call, even
though the conversion body genuinely rewrites its (local) copy of the map. -/
theorem c10_makeFromVect_by_value :
    (∀ (v : MathVector) (m : CompMap), makeFromVectCall v m = m)
    ∧ makeFromVectBody [(1 : ℚ)] [] ≠ ([] : CompMap) := by
  refine ⟨fun v m => rfl, ?_⟩
  simp [makeFromVectBody, insertAdd, List.enum]

theorem vecMul_smulMatrix {n : ℕ} (w : Fin n → ℝ) (t : ℝ)
    (M : Matrix (Fin n) (Fin n) ℝ) :
    Matrix.vecMul w (t • M) = t • Matrix.vecMul w M := by
  funext j
  simp only [Matrix.vecMul, Matrix.dotProduct, Matrix.smul_apply, Pi.smul_apply,
    smul_eq_mul, Finset.mul_sum]
  exact Finset.sum_congr rfl fun i _ => by ring

/-- A row vector annihilated by `M` is a fixed point of right-multiplication by
`exp M`: only the constant term of the exponential series survives. -/
theorem vecMul_exp_eq_self {n : ℕ} (M : Matrix (Fin n) (Fin n) ℝ) (w : Fin n → ℝ)
    (h : Matrix.vecMul w M = 0) :
    Matrix.vecMul w (NormedSpace.exp ℝ M) = w := by
  letI : SeminormedRing (Matrix (Fin n) (Fin n) ℝ) := Matrix.linftyOpSemiNormedRing
  letI : NormedRing (Matrix (Fin n) (Fin n) ℝ) := Matrix.linftyOpNormedRing
  letI : NormedAlgebra ℝ (Matrix (Fin n) (Fin n) ℝ) := Matrix.linftyOpNormedAlgebra
  let L : Matrix (Fin n) (Fin n) ℝ →ₗ[ℝ] (Fin n → ℝ) :=
    { toFun := fun X => Matrix.vecMul w X
      map_add' := fun X Y => Matrix.vecMul_add X Y w
      map_smul' := fun t X => by
        simp only [RingHom.id_apply]
        exact vecMul_smulMatrix w t X }
  have hL : Continuous L := LinearMap.continuous_of_finiteDimensional L
  have hsum := NormedSpace.expSeries_summable' (𝕂 := ℝ) M
  have hmap := hsum.hasSum.mapL ⟨L, hL⟩
  have hexp : (tsum fun k : ℕ => ((k.factorial : ℝ))⁻¹ • M ^ k) = NormedSpace.exp ℝ M := by
    rw [NormedSpace.exp_eq_tsum]
  rw [hexp] at hmap
  have hterm : (fun k : ℕ => (⟨L, hL⟩ : Matrix (Fin n) (Fin n) ℝ →L[ℝ] (Fin n → ℝ))
      (((k.factorial : ℝ))⁻¹ • M ^ k)) = fun k : ℕ => if k = 0 then w else 0 := by
    funext k
    cases k with
    | zero =>
      simp [L, Matrix.vecMul_one]
    | succ k =>
      have hpow : Matrix.vecMul w (M ^ (k + 1)) = 0 := by
        rw [pow_succ']
        rw [← Matrix.vecMul_vecMul, h, Matrix.zero_vecMul]
      simp only [ContinuousLinearMap.coe_mk', LinearMap.coe_mk, AddHom.coe_mk, L]
      rw [vecMul_smulMatrix, hpow]
      simp
  rw [hterm] at hmap
  exact hmap.unique (hasSum_ite_eq 0 w)

/-- A rationalized composition is a fixed point of `rationalize_A2M`. -/
theorem rationalize_A2M_eq_self (c : IsoVector) (h : RatInv c) :
    rationalize_A2M c = c := by
  obtain ⟨h1, h2, h3⟩ := h
  cases c with
  | mk u r am mm ta tm =>
    simp only at h1 h2 h3
    subst h1; subst h2; subst h3
    rfl

/-- C2: decay(0) leaves a composition unchanged.  The solver contract
`evolve(v, 0) = v` holds bitwise for every matrix and vector, and replacing the
atom map of a rationalized composition by that unchanged vector and
re-rationalizing reproduces every tracked entry and both totals exactly. -/
theorem c2_decay_zero_identity :
    (∀ (n : ℕ) (A : Matrix (Fin n) (Fin n) ℝ) (v : Fin n → ℝ), evolve A v 0 = v)
    ∧ (∀ c : IsoVector, RatInv c → decayWith c c.atom_map_ = c) := by
  constructor
  · intro n A v
    unfold evolve
    rw [zero_smul, NormedSpace.exp_zero, Matrix.one_mulVec]
  · intro c h
    show rationalize_A2M c = c
    exact rationalize_A2M_eq_self c h

/-- C2 witness: the zero-time identity on a concrete solver system and on the
concrete 1 kg U-235 composition. -/
theorem c2_decay_zero_identity_witness :
    RatInv u235kg
    ∧ evolve exMat exVec 0 = exVec
    ∧ decayWith u235kg u235kg.atom_map_ = u235kg :=
  ⟨ratInv_u235kg, c2_decay_zero_identity.1 1 exMat exVec,
   c2_decay_zero_identity.2 u235kg ratInv_u235kg⟩

/-- C3: decaying for t1 and then for t2 equals decaying once for t1 + t2 on each
nuclide, within relative tolerance 1e-9 (the solver satisfies the semigroup law
exactly, since `exp(t1*A)` and `exp(t2*A)` commute). -/
theorem c3_decay_semigroup (n : ℕ) (A : Matrix (Fin n) (Fin n) ℝ) (v : Fin n → ℝ)
    (t1 t2 : ℝ) (i : Fin n) (h1 : 0 ≤ t1) (h2 : 0 ≤ t2) :
    |evolve A (evolve A v t1) t2 i - evolve A v (t1 + t2) i|
      ≤ 1 / 1000000000 * |evolve A v (t1 + t2) i| := by
  have hcomm : Commute (t2 • A) (t1 • A) :=
    ((Commute.refl A).smul_left t2).smul_right t1
  have hexp : NormedSpace.exp ℝ ((t1 + t2) • A)
      = NormedSpace.exp ℝ (t2 • A) * NormedSpace.exp ℝ (t1 • A) := by
    rw [add_smul, add_comm (t1 • A) (t2 • A)]
    exact Matrix.exp_add_of_commute ℝ _ _ hcomm
  have heq : evolve A (evolve A v t1) t2 = evolve A v (t1 + t2) := by
    unfold evolve
    rw [Matrix.mulVec_mulVec, ← hexp]
  rw [heq, sub_self, abs_zero]
  positivity

/-- C3 witness: the semigroup law at a concrete system and zero durations. -/
theorem c3_decay_semigroup_witness :
    (0 : ℝ) ≤ 0
    ∧ |evolve exMat (evolve exMat exVec 0) 0 0 - evolve exMat exVec (0 + 0) 0|
        ≤ 1 / 1000000000 * |evolve exMat exVec (0 + 0) 0| :=
  ⟨le_refl 0, c3_decay_semigroup 1 exMat exVec 0 0 0 (le_refl 0) (le_refl 0)⟩

/-- Every column of the decay matrix sums to zero: the diagonal loses `lam j`
and the daughters, whose branching ratios sum to 1, regain it. -/
theorem colsum_makeDecayMatrix {n : ℕ} (lam : Fin n → ℝ) (br : Fin n → Fin n → ℝ)
    (hbr : ∀ j, lam j = 0 ∨ ∑ i ∈ Finset.univ.erase j, br j i = 1) (j : Fin n) :
    ∑ i, makeDecayMatrix lam br i j = 0 := by
  rw [← Finset.add_sum_erase Finset.univ _ (Finset.mem_univ j)]
  have hdiag : makeDecayMatrix lam br j j = -lam j := by
    simp [makeDecayMatrix]
  have hoff : ∑ i ∈ Finset.univ.erase j, makeDecayMatrix lam br i j
      = (∑ i ∈ Finset.univ.erase j, br j i) * lam j := by
    rw [Finset.sum_mul]
    refine Finset.sum_congr rfl fun i hi => ?_
    have hij : i ≠ j := Finset.ne_of_mem_erase hi
    simp [makeDecayMatrix, hij]
  rw [hdiag, hoff]
  rcases hbr j with h | h
  · simp [h]
  · rw [h]; ring

theorem sumAtoms_mulVec {n : ℕ} (M : Matrix (Fin n) (Fin n) ℝ) (v : Fin n → ℝ) :
    sumAtoms (M.mulVec v) = Matrix.dotProduct (Matrix.vecMul (onesRow n) M) v := by
  simp only [sumAtoms, Matrix.mulVec, Matrix.vecMul, Matrix.dotProduct, onesRow,
    one_mul, Finset.sum_mul]
  rw [Finset.sum_comm]

/-- C4: for every composition vector and duration `t >= 0`, decay does not
create atoms: with each parent's branching ratios summing to 1 (and `lam = 0`
for non-parents), the total atom count is in fact conserved exactly, hence
bounded by the prior total plus the `1e-6` tolerance. -/
theorem c4_decay_nonincreasing {n : ℕ} (lam : Fin n → ℝ) (br : Fin n → Fin n → ℝ)
    (v : Fin n → ℝ) (t : ℝ)
    (hbr : ∀ j, lam j = 0 ∨ ∑ i ∈ Finset.univ.erase j, br j i = 1)
    (ht : 0 ≤ t) :
    sumAtoms (evolve (makeDecayMatrix lam br) v t) ≤ sumAtoms v + 1 / 1000000 := by
  have hcol : Matrix.vecMul (onesRow n) (makeDecayMatrix lam br) = 0 := by
    funext j
    have hj := colsum_makeDecayMatrix lam br hbr j
    simpa [Matrix.vecMul, Matrix.dotProduct, onesRow] using hj
  have hzero : Matrix.vecMul (onesRow n) (t • makeDecayMatrix lam br) = 0 := by
    rw [vecMul_smulMatrix, hcol, smul_zero]
  have hones : Matrix.vecMul (onesRow n)
      (NormedSpace.exp ℝ (t • makeDecayMatrix lam br)) = onesRow n :=
    vecMul_exp_eq_self _ _ hzero
  have hsum : sumAtoms (evolve (makeDecayMatrix lam br) v t) = sumAtoms v := by
    unfold evolve
    rw [sumAtoms_mulVec, hones]
    simp [sumAtoms, Matrix.dotProduct, onesRow]
  rw [hsum]
  norm_num

/-- C4 witness: the bound at a concrete one-nuclide system and zero duration. -/
theorem c4_decay_nonincreasing_witness :
    (0 : ℝ) ≤ 0
    ∧ sumAtoms (evolve (makeDecayMatrix exLam exBr) exVec 0)
        ≤ sumAtoms exVec + 1 / 1000000 :=
  ⟨le_refl 0,
   c4_decay_nonincreasing exLam exBr exVec 0 (fun _ => Or.inl rfl) (le_refl 0)⟩

end Cyclus
